import Mathlib

set_option linter.unusedVariables false

/-
Verification of the XPF blockchain simulation (src/src/blockchain.py).

Shallow embedding conventions:
* `sha256` is abstracted as a parameter `H : String → String`; theorems that
  need facts about the digest (hex alphabet, collision freedom on specific
  inputs) take them as hypotheses, and witnesses instantiate `H` concretely.
* Python floats (amounts, timestamps) are modelled as `Rat`; their textual
  rendering inside JSON payloads is a fixed deterministic function `ratStr`
  standing in for Python float repr.
* `json.dumps(..., sort_keys=True)` of the transaction dictionary is spelled
  out key-sorted; the JSON string escaper is modelled for the quote and
  backslash escapes (all characters appearing in this program's payloads are
  printable ASCII, where Python escapes exactly those two).
* Nondeterminism (time.time(), secrets.token_hex) is threaded as explicit
  arguments.
* `self.chain[-1]` on an empty chain would raise in Python; the embedding
  returns `none` / a `badChain` result on that (unreachable) path.
* The `print`ed error reasons are reified: `_verify_transaction`'s three
  failure prints become `TxError`, `is_chain_valid`'s first failing block
  index becomes `first_invalid`.
-/

/-- Characters of a lowercase hexadecimal digest (`hashlib.sha256(..).hexdigest()`
only produces these). -/
def hexDigits : List Char := "0123456789abcdef".data

/-- Deterministic rendering of a rational number, standing in for Python's
float repr inside JSON payloads and f-strings. -/
def ratStr (q : Rat) : String := toString q.num ++ "/" ++ toString q.den

/-- Python string slicing `s[:40]` used for address derivation. -/
def addrOf (H : String → String) (private_key : String) : String :=
  ⟨(H private_key).data.take 40⟩

/-- Escaping of a single character inside a JSON string literal
(`json.dumps` escapes `"` and `\` on printable-ASCII input). -/
def jsonEscapeChar (c : Char) : List Char :=
  if c = '"' then ['\\', '"']
  else if c = '\\' then ['\\', '\\']
  else [c]

/-- Escaping of a character sequence inside a JSON string literal. -/
def jsonEscape : List Char → List Char
  | [] => []
  | c :: cs => jsonEscapeChar c ++ jsonEscape cs

/-- A JSON string literal: quoted, escaped contents. -/
def jsonQuote (s : String) : String := ⟨'"' :: (jsonEscape s.data ++ ['"'])⟩

/-- Items of `json.dumps` applied to a list of strings: the part after the
opening bracket (separator is the default `", "`). -/
def encItems : List String → List Char
  | [] => [']']
  | [x] => '"' :: (jsonEscape x.data ++ ['"', ']'])
  | x :: xs => '"' :: (jsonEscape x.data ++ ['"', ',', ' '] ++ encItems xs)

/-- Model of `json.dumps` applied to a list of strings (`sort_keys` has no effect on
lists, insertion order is preserved). -/
def dumps_strlist (xs : List String) : String := ⟨'[' :: encItems xs⟩

/-- The `Transaction` dataclass: sender address (or the "SYSTEM" sentinel),
recipient address, amount, timestamp, optional simulated signature. -/
structure Transaction where
  sender : String
  recipient : String
  amount : Rat
  timestamp : Rat
  signature : Option String
deriving DecidableEq, Repr

/-- Method `Transaction.to_json`: `json.dumps` of the field dictionary with
`sort_keys=True` (key order: amount, recipient, sender, [signature],
timestamp); the signature key appears only when requested and present. -/
def Transaction.to_json (tx : Transaction) (include_signature : Bool) : String :=
  let base := "\x7b\"amount\": " ++ ratStr tx.amount
    ++ ", \"recipient\": " ++ jsonQuote tx.recipient
    ++ ", \"sender\": " ++ jsonQuote tx.sender
  let tl := ", \"timestamp\": " ++ ratStr tx.timestamp ++ "\x7d"
  match include_signature, tx.signature with
  | true, some sig => base ++ ", \"signature\": " ++ jsonQuote sig ++ tl
  | _, _ => base ++ tl

/-- The `Block` dataclass: index, previous block hash, timestamp, ordered
transaction list, nonce (default 0), optional sealed hash (default None). -/
structure Block where
  index : Nat
  prev_hash : String
  timestamp : Rat
  transactions : List Transaction
  nonce : Nat
  hash : Option String
deriving DecidableEq, Repr

/-- Serialization `json.dumps([tx.to_json() for tx in self.transactions], sort_keys=True)`
inside `Block.compute_hash`. -/
def Block.tx_json (b : Block) : String :=
  dumps_strlist (b.transactions.map (fun tx => tx.to_json true))

/-- The f-string `f"{self.index}{self.prev_hash}{self.timestamp}{tx_json}{self.nonce}"`
hashed by `Block.compute_hash`. -/
def Block.block_string (b : Block) : String :=
  ⟨(toString b.index).data ++ b.prev_hash.data ++ (ratStr b.timestamp).data
    ++ b.tx_json.data ++ (toString b.nonce).data⟩

/-- Method `Block.compute_hash`: hash of the serialized block contents (the stored
`hash` field itself is not part of the payload). -/
def Block.compute_hash (b : Block) (H : String → String) : String :=
  H b.block_string

/-- The `Wallet` class: random private key and address derived as the first 40 hex
characters of its digest. -/
structure Wallet where
  private_key : String
  address : String
deriving DecidableEq, Repr

/-- Constructor `Wallet.__init__` given the generated random token. -/
def mkWallet (H : String → String) (private_key : String) : Wallet :=
  ⟨private_key, addrOf H private_key⟩

/-- Method `Wallet.sign`: simulated signature `sha256(private_key + message)`. -/
def Wallet.sign (w : Wallet) (H : String → String) (message : String) : String :=
  H (w.private_key ++ message)

/-- The `Blockchain` state: chain, pending pool, difficulty, and the
address → private-key registry (a dict, modelled as an association list with
newest binding first). -/
structure Blockchain where
  chain : List Block
  pending_transactions : List Transaction
  difficulty : Nat
  wallet_registry : List (String × String)
deriving DecidableEq, Repr

/-- Dictionary lookup in the wallet registry. -/
def regLookup (addr : String) : List (String × String) → Option String
  | [] => none
  | (a, k) :: rest => if addr = a then some k else regLookup addr rest

/-- Genesis construction `_create_genesis_block`: index 0, prev_hash "0", no transactions,
nonce 0, hash computed directly. -/
def genesisBlock (H : String → String) (t : Rat) : Block :=
  let g : Block := ⟨0, "0", t, [], 0, none⟩
  {g with hash := some (g.compute_hash H)}

/-- Constructor `Blockchain.__init__`: fresh state containing only the genesis block. -/
def Blockchain.init (H : String → String) (difficulty : Nat) (t : Rat) : Blockchain :=
  ⟨[genesisBlock H t], [], difficulty, []⟩

/-- Method `Blockchain.create_wallet`: register the wallet, mint 10 XPF to it via a
SYSTEM transaction confirmed immediately in its own block (no proof-of-work,
nonce 0, hash computed directly). `t1`/`t2` are the two `current_time()`
calls. -/
def Blockchain.create_wallet (bc : Blockchain) (H : String → String)
    (private_key : String) (t1 t2 : Rat) : Option (Wallet × Blockchain) :=
  let w := mkWallet H private_key
  match bc.chain.getLast? with
  | none => none
  | some tip =>
    match tip.hash with
    | none => none
    | some ph =>
      let tx : Transaction := ⟨"SYSTEM", w.address, 10, t1, none⟩
      let mint_block : Block := ⟨bc.chain.length, ph, t2, [tx], 0, none⟩
      let sealed := {mint_block with hash := some (mint_block.compute_hash H)}
      some (w, ⟨bc.chain ++ [sealed], bc.pending_transactions, bc.difficulty,
        (w.address, w.private_key) :: bc.wallet_registry⟩)

/-- Method `Blockchain.get_balance`: scan every chained block's transactions,
crediting the recipient and debiting the sender; pending transactions are
not consulted. -/
def Blockchain.get_balance (bc : Blockchain) (address : String) : Rat :=
  bc.chain.foldl
    (fun bal block =>
      block.transactions.foldl
        (fun bal tx =>
          let bal := if tx.recipient = address then bal + tx.amount else bal
          if tx.sender = address then bal - tx.amount else bal)
        bal)
    0

/-- The three rejection reasons printed by `_verify_transaction`. -/
inductive TxError where
  | unknownSender : TxError
  | invalidSignature : TxError
  | insufficientBalance : TxError
deriving DecidableEq, Repr

/-- Method `Blockchain._verify_transaction`, with the printed reason reified:
`none` means the checks passed. -/
def Blockchain.verify_transaction (bc : Blockchain) (H : String → String)
    (tx : Transaction) : Option TxError :=
  if tx.sender = "SYSTEM" then none
  else
    match regLookup tx.sender bc.wallet_registry with
    | none => some TxError.unknownSender
    | some private_key =>
      let expected_sig := H (private_key ++ tx.to_json false)
      if tx.signature ≠ some expected_sig then some TxError.invalidSignature
      else if bc.get_balance tx.sender < tx.amount then some TxError.insufficientBalance
      else none

/-- The transaction built and signed at the top of
`Blockchain.create_transaction`: sender address derived from the private
key, signature over the signature-free payload. -/
def signed_tx (H : String → String) (sender_private_key recipient : String)
    (amount t : Rat) : Transaction :=
  let sender_address := addrOf H sender_private_key
  let tx : Transaction := ⟨sender_address, recipient, amount, t, none⟩
  {tx with signature := some (H (sender_private_key ++ tx.to_json false))}

/-- Method `Blockchain.create_transaction`: build and sign the transaction, verify
it, and on success append it to the pending pool; the raised `ValueError`
is modelled as the reified rejection reason, the state is returned
alongside (unchanged on rejection). -/
def Blockchain.create_transaction (bc : Blockchain) (H : String → String)
    (sender_private_key recipient : String) (amount t : Rat) :
    Except TxError Transaction × Blockchain :=
  let tx := signed_tx H sender_private_key recipient amount t
  match bc.verify_transaction H tx with
  | some e => (Except.error e, bc)
  | none =>
    (Except.ok tx,
      ⟨bc.chain, bc.pending_transactions ++ [tx], bc.difficulty, bc.wallet_registry⟩)

/-- The proof-of-work target `"0" * difficulty`. -/
def zeroTarget (difficulty : Nat) : String := ⟨List.replicate difficulty '0'⟩

/-- Character-list prefix test (structural recursion, kernel-evaluable). -/
def charsStartsWith : List Char → List Char → Bool
  | _, [] => true
  | [], _ :: _ => false
  | c :: cs, p :: ps => decide (c = p) && charsStartsWith cs ps

/-- Python `str.startswith`: the string starts with the given target. -/
def strStartsWith (s pre : String) : Bool := charsStartsWith s.data pre.data

/-- The block constructed by `mine_pending_transactions` before the
proof-of-work loop. -/
def mineBase (bc : Blockchain) (ph : String) (t : Rat) : Block :=
  ⟨bc.chain.length, ph, t, bc.pending_transactions, 0, none⟩

/-- The proof-of-work loop: recompute the hash, stop when it starts with the
target, otherwise increment the nonce. The loop is unbounded in the source;
`fuel` bounds the search in the embedding (`none` = still searching). -/
def findNonce (H : String → String) (target : String) : Block → Nat → Option Block
  | _, 0 => none
  | b, fuel + 1 =>
    let new_hash := b.compute_hash H
    if strStartsWith new_hash target then some {b with hash := some new_hash}
    else findNonce H target {b with nonce := b.nonce + 1} fuel

/-- Outcome of `mine_pending_transactions`: the `ValueError`, the
(unreachable) empty-chain crash, a cut-off search, or the sealed block with
the successor state. -/
inductive MineResult where
  | noTransactions : MineResult
  | badChain : MineResult
  | outOfFuel : MineResult
  | mined : Block → Blockchain → MineResult
deriving DecidableEq, Repr

/-- Method `Blockchain.mine_pending_transactions`: refuse an empty pool, package all
pending transactions into a block at the tip, run proof-of-work, append the
sealed block and clear the pool. `miner_address` is unused in the source. -/
def Blockchain.mine_pending_transactions (bc : Blockchain) (H : String → String)
    (miner_address : String) (t : Rat) (fuel : Nat) : MineResult :=
  if bc.pending_transactions = [] then MineResult.noTransactions
  else
    match bc.chain.getLast? with
    | none => MineResult.badChain
    | some tip =>
      match tip.hash with
      | none => MineResult.badChain
      | some ph =>
        match findNonce H (zeroTarget bc.difficulty) (mineBase bc ph t) fuel with
        | none => MineResult.outOfFuel
        | some sealed =>
          MineResult.mined sealed
            ⟨bc.chain ++ [sealed], [], bc.difficulty, bc.wallet_registry⟩

/-- Per-transaction check of `is_chain_valid`: SYSTEM transactions pass, any
other sender must be registered with a matching recomputed signature. -/
def txCheck (H : String → String) (registry : List (String × String))
    (tx : Transaction) : Bool :=
  decide (tx.sender = "SYSTEM") ||
    (match regLookup tx.sender registry with
     | none => false
     | some pk => decide (tx.signature = some (H (pk ++ tx.to_json false))))

/-- Per-block checks of `is_chain_valid`: stored hash equals the recomputed
content hash, `prev_hash` equals the predecessor's stored hash, and every
transaction passes `txCheck`. -/
def blockChecks (H : String → String) (registry : List (String × String))
    (prev cur : Block) : Bool :=
  decide (cur.hash = some (cur.compute_hash H)) &&
    decide (some cur.prev_hash = prev.hash) &&
    cur.transactions.all (txCheck H registry)

/-- The loop of `is_chain_valid`, reporting the index of the first failing
block (the index printed by the source). -/
def firstInvalidFrom (H : String → String) (registry : List (String × String)) :
    Nat → Block → List Block → Option Nat
  | _, _, [] => none
  | i, prev, cur :: rest =>
    if blockChecks H registry prev cur then firstInvalidFrom H registry (i + 1) cur rest
    else some i

/-- First failing block index of `is_chain_valid` (`none` when the whole
chain verifies). -/
def Blockchain.first_invalid (bc : Blockchain) (H : String → String) : Option Nat :=
  match bc.chain with
  | [] => none
  | g :: rest => firstInvalidFrom H bc.wallet_registry 1 g rest

/-- Method `Blockchain.is_chain_valid`: true when no block from index 1 on fails its
checks. -/
def Blockchain.is_chain_valid (bc : Blockchain) (H : String → String) : Bool :=
  (bc.first_invalid H).isNone

/-! ## Specification-side definitions -/

/-- Modelled from the spec: the signed contribution of one transaction to an
address's balance (`+amount` to the recipient, `-amount` from the sender). -/
def txDelta (address : String) (tx : Transaction) : Rat :=
  (if tx.recipient = address then tx.amount else 0)
    - (if tx.sender = address then tx.amount else 0)

/-- Modelled from the spec: the balance as the sum, over all transactions of
all chained blocks, of the signed contributions; pending transactions are
not mentioned. -/
def balanceSpec (bc : Blockchain) (address : String) : Rat :=
  (((bc.chain.map Block.transactions).flatten).map (txDelta address)).sum

/-- A chained transaction acceptable to `is_chain_valid`: either a SYSTEM
mint, or its sender is registered and the stored signature matches the one
recomputed from the registered key. -/
def SigOK (H : String → String) (registry : List (String × String))
    (tx : Transaction) : Prop :=
  tx.sender = "SYSTEM" ∨
    ∃ pk, regLookup tx.sender registry = some pk ∧
      tx.signature = some (H (pk ++ tx.to_json false))

/-- The acceptance condition of `is_chain_valid` as a proposition on the
blocks after genesis: each block's stored hash is its recomputed content
hash, its `prev_hash` is the predecessor's stored hash, and its
transactions are `SigOK`. -/
def LinkedFrom (H : String → String) (registry : List (String × String)) :
    Block → List Block → Prop
  | _, [] => True
  | prev, cur :: rest =>
    cur.hash = some (cur.compute_hash H) ∧
      some cur.prev_hash = prev.hash ∧
      (∀ tx ∈ cur.transactions, SigOK H registry tx) ∧
      LinkedFrom H registry cur rest

/-- All blocks of the list pass `blockChecks` against their predecessor. -/
def passesFrom (H : String → String) (registry : List (String × String)) :
    Block → List Block → Bool
  | _, [] => true
  | prev, cur :: rest => blockChecks H registry prev cur && passesFrom H registry cur rest

/-- Last element of a nonempty list given as head and tail. -/
def lastD : Block → List Block → Block
  | b, [] => b
  | _, c :: rest => lastD c rest

/-- The state invariant maintained by every ledger operation: nonempty chain
whose genesis has a stored hash, the after-genesis blocks satisfying the
acceptance condition, and every pending transaction already `SigOK`. -/
def LedgerInv (H : String → String) (bc : Blockchain) : Prop :=
  match bc.chain with
  | [] => False
  | g :: rest =>
    g.hash.isSome ∧ LinkedFrom H bc.wallet_registry g rest ∧
      ∀ tx ∈ bc.pending_transactions, SigOK H bc.wallet_registry tx

/-- Ledger states reachable from a fresh ledger by successful operations.
The wallet step carries the spec's stated assumption that wallet addresses
never collide (§3: "two wallets never collide in practice"): the fresh
wallet's address is not yet registered. -/
inductive Reachable (H : String → String) : Blockchain → Prop where
  | base (d : Nat) (t : Rat) : Reachable H (Blockchain.init H d t)
  | wallet {bc bc' : Blockchain} {w : Wallet} {pk : String} {t1 t2 : Rat} :
      Reachable H bc →
      regLookup (addrOf H pk) bc.wallet_registry = none →
      bc.create_wallet H pk t1 t2 = some (w, bc') →
      Reachable H bc'
  | txn {bc bc' : Blockchain} {tx : Transaction} {pk recip : String} {amt t : Rat} :
      Reachable H bc →
      bc.create_transaction H pk recip amt t = (Except.ok tx, bc') →
      Reachable H bc'
  | mined {bc bc' : Blockchain} {blk : Block} {miner : String} {t : Rat} {fuel : Nat} :
      Reachable H bc →
      bc.mine_pending_transactions H miner t fuel = MineResult.mined blk bc' →
      Reachable H bc'

/-! ## Balance accounting (C2) -/

theorem foldl_txs_eq (address : String) (txs : List Transaction) (b0 : Rat) :
    txs.foldl
      (fun bal tx =>
        let bal := if tx.recipient = address then bal + tx.amount else bal
        if tx.sender = address then bal - tx.amount else bal)
      b0 = b0 + (txs.map (txDelta address)).sum := by
  induction txs generalizing b0 with
  | nil => simp
  | cons tx txs ih =>
    simp only [List.foldl_cons, List.map_cons, List.sum_cons]
    rw [ih]
    unfold txDelta
    by_cases h1 : tx.recipient = address <;> by_cases h2 : tx.sender = address <;>
      simp only [h1, h2, if_pos, if_neg, ite_true, ite_false] <;> ring

theorem foldl_blocks_eq (address : String) (blocks : List Block) (b0 : Rat) :
    blocks.foldl
      (fun bal block =>
        block.transactions.foldl
          (fun bal tx =>
            let bal := if tx.recipient = address then bal + tx.amount else bal
            if tx.sender = address then bal - tx.amount else bal)
          bal)
      b0 = b0 + (((blocks.map Block.transactions).flatten).map (txDelta address)).sum := by
  induction blocks generalizing b0 with
  | nil => simp
  | cons b bs ih =>
    simp only [List.foldl_cons, List.map_cons, List.flatten_cons, List.map_append,
      List.sum_append]
    rw [foldl_txs_eq, ih]
    ring

theorem get_balance_eq_balanceSpec (bc : Blockchain) (address : String) :
    bc.get_balance address = balanceSpec bc address := by
  unfold Blockchain.get_balance balanceSpec
  rw [foldl_blocks_eq]
  simp

/-- Claim C2: `balance_of(address)` equals the sum over all chained
transactions of `+amount` to the recipient and `-amount` from the sender,
and the pending pool never contributes to the result. -/
theorem claim_C2_get_balance (bc : Blockchain) (address : String) :
    bc.get_balance address = balanceSpec bc address ∧
      ∀ p : List Transaction,
        (Blockchain.mk bc.chain p bc.difficulty bc.wallet_registry).get_balance address
          = bc.get_balance address := by
  refine ⟨get_balance_eq_balanceSpec bc address, fun p => rfl⟩

/-! ## Injectivity of the transaction-list serialization (C8) -/

/-- Decoder for the contents of a JSON string literal: consumes characters
up to the closing quote, unescaping as it goes; returns the decoded
contents and the remaining input. -/
def decStr : List Char → Option (List Char × List Char)
  | [] => none
  | c :: rest =>
    if c = '"' then some ([], rest)
    else if c = '\\' then
      match rest with
      | [] => none
      | d :: rest2 =>
        match decStr rest2 with
        | none => none
        | some (s, r) => some (d :: s, r)
    else
      match decStr rest with
      | none => none
      | some (s, r) => some (c :: s, r)

/-- Decoder for a nonempty comma-separated run of JSON string literals
terminated by the closing bracket. -/
def decItems : Nat → List Char → Option (List String)
  | 0, _ => none
  | fuel + 1, cs =>
    match cs with
    | '"' :: rest =>
      match decStr rest with
      | none => none
      | some (s, rest2) =>
        match rest2 with
        | [']'] => some [⟨s⟩]
        | ',' :: ' ' :: rest3 =>
          match decItems fuel rest3 with
          | none => none
          | some xs => some (⟨s⟩ :: xs)
        | _ => none
    | _ => none

/-- Decoder for `dumps_strlist` output. -/
def decList (cs : List Char) : Option (List String) :=
  match cs with
  | [] => none
  | c :: rest =>
    if c = '[' then
      if rest = [']'] then some [] else decItems rest.length rest
    else none

theorem decStr_quote (rest : List Char) : decStr ('"' :: rest) = some ([], rest) := by
  rw [decStr.eq_def]
  rfl

theorem decStr_backslash (d : Char) (rest2 : List Char) :
    decStr ('\\' :: d :: rest2) =
      match decStr rest2 with
      | none => none
      | some (s, r) => some (d :: s, r) := by
  conv_lhs => rw [decStr.eq_def]
  dsimp only
  rw [if_neg (by decide : ¬ ('\\' : Char) = '"'), if_pos rfl]

theorem decStr_other (c : Char) (rest : List Char) (h1 : c ≠ '"') (h2 : c ≠ '\\') :
    decStr (c :: rest) =
      match decStr rest with
      | none => none
      | some (s, r) => some (c :: s, r) := by
  conv_lhs => rw [decStr.eq_def]
  dsimp only
  rw [if_neg h1, if_neg h2]

theorem decStr_escape (s : List Char) (rest : List Char) :
    decStr (jsonEscape s ++ '"' :: rest) = some (s, rest) := by
  induction s with
  | nil => exact decStr_quote rest
  | cons c cs ih =>
    by_cases h1 : c = '"'
    · subst h1
      show decStr ('\\' :: '"' :: (jsonEscape cs ++ '"' :: rest)) = _
      rw [decStr_backslash, ih]
    · by_cases h2 : c = '\\'
      · subst h2
        show decStr ('\\' :: '\\' :: (jsonEscape cs ++ '"' :: rest)) = _
        rw [decStr_backslash, ih]
      · have : jsonEscape (c :: cs) ++ '"' :: rest
            = c :: (jsonEscape cs ++ '"' :: rest) := by
          simp [jsonEscape, jsonEscapeChar, h1, h2]
        rw [this, decStr_other c _ h1 h2, ih]

theorem decItems_encItems (x : String) (xs : List String) :
    ∀ fuel : Nat, xs.length < fuel →
      decItems fuel (encItems (x :: xs)) = some (x :: xs) := by
  induction xs generalizing x with
  | nil =>
    intro fuel hf
    match fuel, hf with
    | fuel + 1, _ =>
      show decItems (fuel + 1) ('"' :: (jsonEscape x.data ++ ['"', ']'])) = _
      have : jsonEscape x.data ++ ['"', ']'] = jsonEscape x.data ++ '"' :: [']'] := rfl
      simp only [decItems, this, decStr_escape]
  | cons y ys ih =>
    intro fuel hf
    match fuel, hf with
    | fuel + 1, hf =>
      show decItems (fuel + 1)
        ('"' :: (jsonEscape x.data ++ ['"', ',', ' '] ++ encItems (y :: ys))) = _
      have h2 : jsonEscape x.data ++ ['"', ',', ' '] ++ encItems (y :: ys)
          = jsonEscape x.data ++ '"' :: (',' :: ' ' :: encItems (y :: ys)) := by
        simp
      rw [h2]
      have hlt : ys.length < fuel := by
        simp only [List.length_cons] at hf
        omega
      simp only [decItems, decStr_escape, ih y fuel hlt]

theorem encItems_length (xs : List String) : xs.length < (encItems xs).length := by
  induction xs with
  | nil => simp [encItems]
  | cons x xs ih =>
    cases xs with
    | nil => simp [encItems]
    | cons y ys =>
      show (x :: y :: ys).length < (encItems (x :: y :: ys)).length
      have h : encItems (x :: y :: ys)
          = '"' :: (jsonEscape x.data ++ ['"', ',', ' '] ++ encItems (y :: ys)) := rfl
      rw [h]
      simp only [List.length_cons, List.length_append] at ih ⊢
      omega

theorem encItems_cons_head (x : String) (xs : List String) :
    ∃ t, encItems (x :: xs) = '"' :: t := by
  cases xs <;> exact ⟨_, rfl⟩

theorem strExt (s t : String) (h : s.data = t.data) : s = t := by
  cases s
  cases t
  exact congrArg String.mk h

theorem decList_dumps (xs : List String) : decList (dumps_strlist xs).data = some xs := by
  cases xs with
  | nil => rfl
  | cons x xs =>
    show decList ('[' :: encItems (x :: xs)) = _
    obtain ⟨t, ht⟩ := encItems_cons_head x xs
    have hne : encItems (x :: xs) ≠ [']'] := by
      rw [ht]
      intro hcontra
      have := List.head_eq_of_cons_eq hcontra
      exact absurd this (by decide)
    unfold decList
    dsimp only
    rw [if_pos rfl, if_neg hne]
    exact decItems_encItems x xs (encItems (x :: xs)).length
      (Nat.lt_of_le_of_lt (Nat.le_succ xs.length) (encItems_length (x :: xs)))

theorem dumps_strlist_inj {xs ys : List String}
    (h : dumps_strlist xs = dumps_strlist ys) : xs = ys := by
  have h2 : decList (dumps_strlist xs).data = decList (dumps_strlist ys).data := by
    rw [h]
  rw [decList_dumps, decList_dumps] at h2
  exact Option.some.inj h2

theorem block_string_fields_cancel (b1 b2 : Block)
    (hidx : b1.index = b2.index) (hprev : b1.prev_hash = b2.prev_hash)
    (hts : b1.timestamp = b2.timestamp) (hnonce : b1.nonce = b2.nonce)
    (hbs : b1.block_string = b2.block_string) : b1.tx_json = b2.tx_json := by
  have hd : (toString b1.index).data ++ b1.prev_hash.data ++ (ratStr b1.timestamp).data
      ++ b1.tx_json.data ++ (toString b1.nonce).data
      = (toString b2.index).data ++ b2.prev_hash.data ++ (ratStr b2.timestamp).data
      ++ b2.tx_json.data ++ (toString b2.nonce).data := congrArg String.data hbs
  rw [hidx, hprev, hts, hnonce] at hd
  have h1 := List.append_cancel_right hd
  have h2 := List.append_cancel_left h1
  exact strExt _ _ h2

/-- Claim C8: `Block.compute_hash` serializes the transaction list in
insertion order, so two blocks agreeing on index, prev_hash, timestamp and
nonce whose serialized transaction sequences differ (in particular,
distinctly serialized transactions listed in different orders) have
different hashed payloads, and — given that the hash function does not
collide (sha256 modelled as injective) — different content hashes. -/
theorem claim_C8_order_in_payload (H : String → String) (b1 b2 : Block)
    (hidx : b1.index = b2.index) (hprev : b1.prev_hash = b2.prev_hash)
    (hts : b1.timestamp = b2.timestamp) (hnonce : b1.nonce = b2.nonce)
    (htx : b1.transactions.map (fun tx => tx.to_json true)
      ≠ b2.transactions.map (fun tx => tx.to_json true)) :
    b1.block_string ≠ b2.block_string ∧
      (Function.Injective H → b1.compute_hash H ≠ b2.compute_hash H) := by
  have hbs : b1.block_string ≠ b2.block_string := by
    intro hbs
    have hx := block_string_fields_cancel b1 b2 hidx hprev hts hnonce hbs
    exact htx (dumps_strlist_inj hx)
  refine ⟨hbs, fun hinj hcontra => hbs (hinj hcontra)⟩

/-- Concrete witness data for the C8 instance: two distinct transactions. -/
def txW1 : Transaction := ⟨"a", "b", 1, 2, none⟩

/-- Concrete witness data for the C8 instance: second transaction. -/
def txW2 : Transaction := ⟨"c", "d", 3, 4, none⟩

/-- Witness for C8: two concrete blocks listing the same two transactions in
swapped order have different payloads and (under the identity hash, which is
injective) different content hashes. -/
theorem claim_C8_order_in_payload_witness :
    (Block.mk 1 "p" 0 [txW1, txW2] 0 none).block_string
        ≠ (Block.mk 1 "p" 0 [txW2, txW1] 0 none).block_string ∧
      (Function.Injective (fun s : String => s) →
        (Block.mk 1 "p" 0 [txW1, txW2] 0 none).compute_hash (fun s => s)
          ≠ (Block.mk 1 "p" 0 [txW2, txW1] 0 none).compute_hash (fun s => s)) :=
  claim_C8_order_in_payload (fun s => s) _ _ rfl rfl rfl rfl (by decide)

/-! ## Proof-of-work loop (C1, C5) -/

theorem findNonce_some (H : String → String) (target : String) :
    ∀ (fuel : Nat) (b blk : Block), findNonce H target b fuel = some blk →
      blk = {b with nonce := blk.nonce, hash := some (blk.compute_hash H)} ∧
        b.nonce ≤ blk.nonce ∧
        strStartsWith (blk.compute_hash H) target = true ∧
        ∀ m, b.nonce ≤ m → m < blk.nonce →
          strStartsWith (({b with nonce := m} : Block).compute_hash H) target = false := by
  intro fuel
  induction fuel with
  | zero =>
    intro b blk h
    simp [findNonce] at h
  | succ fuel ih =>
    intro b blk h
    rw [findNonce] at h
    by_cases hs : strStartsWith (b.compute_hash H) target
    · rw [if_pos hs] at h
      have hblk : ({b with hash := some (b.compute_hash H)} : Block) = blk :=
        Option.some.inj h
      subst hblk
      refine ⟨rfl, Nat.le_refl _, hs, ?_⟩
      intro m hm1 hm2
      exact absurd (Nat.lt_of_le_of_lt hm1 hm2) (Nat.lt_irrefl _)
    · rw [if_neg hs] at h
      obtain ⟨h1, h2, h3, h4⟩ := ih {b with nonce := b.nonce + 1} blk h
      refine ⟨h1, Nat.le_of_succ_le h2, h3, ?_⟩
      intro m hm1 hm2
      rcases Nat.eq_or_lt_of_le hm1 with heq | hlt
      · have hgoal : strStartsWith (({b with nonce := m} : Block).compute_hash H) target
            = strStartsWith (b.compute_hash H) target := by
          rw [← heq]
        rw [hgoal]
        exact Bool.eq_false_iff.mpr hs
      · exact h4 m hlt hm2

/-- Claim C1: with a non-empty pending pool (and the proof-of-work search
terminating, here: within `fuel` attempts), `mine()` succeeds, and afterwards
the pool is empty, the chain grew by exactly the new block, which carries
exactly the previously pending transactions in submission order, index equal
to the old chain length and `prev_hash` equal to the old tip's stored hash. -/
theorem claim_C1_mine_success (H : String → String) (bc : Blockchain)
    (miner : String) (t : Rat) (fuel : Nat) (tip : Block) (ph : String) (blk : Block)
    (hne : bc.pending_transactions ≠ [])
    (htip : bc.chain.getLast? = some tip)
    (hph : tip.hash = some ph)
    (hsearch : findNonce H (zeroTarget bc.difficulty) (mineBase bc ph t) fuel = some blk) :
    ∃ bc' : Blockchain,
      bc.mine_pending_transactions H miner t fuel = MineResult.mined blk bc' ∧
      bc'.pending_transactions = [] ∧
      bc'.chain = bc.chain ++ [blk] ∧
      bc'.chain.length = bc.chain.length + 1 ∧
      blk.transactions = bc.pending_transactions ∧
      blk.index = bc.chain.length ∧
      blk.prev_hash = ph ∧
      tip.hash = some blk.prev_hash := by
  obtain ⟨h1, _h2, _h3, _h4⟩ := findNonce_some H (zeroTarget bc.difficulty) fuel _ blk hsearch
  have htxs : blk.transactions = bc.pending_transactions := congrArg Block.transactions h1
  have hidx : blk.index = bc.chain.length := congrArg Block.index h1
  have hprev : blk.prev_hash = ph := congrArg Block.prev_hash h1
  refine ⟨⟨bc.chain ++ [blk], [], bc.difficulty, bc.wallet_registry⟩, ?_, rfl, rfl,
    by simp, htxs, hidx, hprev, by rw [hph, hprev]⟩
  unfold Blockchain.mine_pending_transactions
  rw [if_neg hne, htip]
  dsimp only
  rw [hph]
  dsimp only
  rw [hsearch]

/-- Concrete hash function for witnesses: a constant lowercase-hex digest. -/
def Hw : String → String := fun _ => "ab"

/-- Concrete pre-mine ledger state for witnesses: one genesis-like block with
stored hash "g" and a single pending transaction, difficulty 0. -/
def bcW : Blockchain :=
  ⟨[⟨0, "0", 0, [], 0, some "g"⟩], [⟨"s", "r", 1, 0, none⟩], 0, []⟩

/-- Witness for C1 at a concrete state where the search succeeds at once. -/
theorem claim_C1_mine_success_witness :
    ∃ bc' : Blockchain,
      bcW.mine_pending_transactions Hw "m" 0 1
          = MineResult.mined ⟨1, "g", 0, [⟨"s", "r", 1, 0, none⟩], 0, some "ab"⟩ bc' ∧
      bc'.pending_transactions = [] ∧
      bc'.chain = bcW.chain ++ [⟨1, "g", 0, [⟨"s", "r", 1, 0, none⟩], 0, some "ab"⟩] ∧
      bc'.chain.length = bcW.chain.length + 1 ∧
      (⟨1, "g", 0, [⟨"s", "r", 1, 0, none⟩], 0, some "ab"⟩ : Block).transactions
        = bcW.pending_transactions ∧
      (⟨1, "g", 0, [⟨"s", "r", 1, 0, none⟩], 0, some "ab"⟩ : Block).index = bcW.chain.length ∧
      (⟨1, "g", 0, [⟨"s", "r", 1, 0, none⟩], 0, some "ab"⟩ : Block).prev_hash = "g" ∧
      (⟨0, "0", 0, [], 0, some "g"⟩ : Block).hash
        = some (⟨1, "g", 0, [⟨"s", "r", 1, 0, none⟩], 0, some "ab"⟩ : Block).prev_hash :=
  claim_C1_mine_success Hw bcW "m" 0 1 ⟨0, "0", 0, [], 0, some "g"⟩ "g"
    ⟨1, "g", 0, [⟨"s", "r", 1, 0, none⟩], 0, some "ab"⟩
    (by decide) rfl rfl (by decide)

/-- Claim C5: whenever `mine()` returns a block, its stored hash is exactly
the recomputed content hash of its final field values, that hash has at
least `difficulty` leading zero hex characters, and every smaller nonce
(the loop incremented from 0) fails the target. -/
theorem claim_C5_proof_of_work (H : String → String) (bc : Blockchain)
    (miner : String) (t : Rat) (fuel : Nat) (blk : Block) (bc' : Blockchain)
    (hmined : bc.mine_pending_transactions H miner t fuel = MineResult.mined blk bc') :
    blk.hash = some (blk.compute_hash H) ∧
      strStartsWith (blk.compute_hash H) (zeroTarget bc.difficulty) = true ∧
      ∀ m, m < blk.nonce →
        strStartsWith (({blk with nonce := m} : Block).compute_hash H)
          (zeroTarget bc.difficulty) = false := by
  unfold Blockchain.mine_pending_transactions at hmined
  by_cases hpe : bc.pending_transactions = []
  · rw [if_pos hpe] at hmined
    cases hmined
  · rw [if_neg hpe] at hmined
    cases htip : bc.chain.getLast? with
    | none =>
      rw [htip] at hmined
      cases hmined
    | some tip =>
      rw [htip] at hmined
      dsimp only at hmined
      cases hph : tip.hash with
      | none =>
        rw [hph] at hmined
        cases hmined
      | some ph =>
        rw [hph] at hmined
        dsimp only at hmined
        cases hsea : findNonce H (zeroTarget bc.difficulty) (mineBase bc ph t) fuel with
        | none =>
          rw [hsea] at hmined
          cases hmined
        | some sealed =>
          rw [hsea] at hmined
          dsimp only at hmined
          injection hmined with hb _hbc
          obtain ⟨h1, _h2, h3, h4⟩ :=
            findNonce_some H (zeroTarget bc.difficulty) fuel (mineBase bc ph t) sealed hsea
          rw [← hb]
          refine ⟨congrArg Block.hash h1, h3, ?_⟩
          intro m hm
          rw [h1]
          exact h4 m (Nat.zero_le m) hm

/-- Witness for C5 at the same concrete mined state. -/
theorem claim_C5_proof_of_work_witness :
    (⟨1, "g", 0, [⟨"s", "r", 1, 0, none⟩], 0, some "ab"⟩ : Block).hash
        = some ((⟨1, "g", 0, [⟨"s", "r", 1, 0, none⟩], 0, some "ab"⟩ : Block).compute_hash Hw) ∧
      strStartsWith ((⟨1, "g", 0, [⟨"s", "r", 1, 0, none⟩], 0, some "ab"⟩ : Block).compute_hash Hw)
          (zeroTarget bcW.difficulty) = true ∧
      ∀ m, m < (⟨1, "g", 0, [⟨"s", "r", 1, 0, none⟩], 0, some "ab"⟩ : Block).nonce →
        strStartsWith (({(⟨1, "g", 0, [⟨"s", "r", 1, 0, none⟩], 0, some "ab"⟩ : Block) with nonce := m}
            : Block).compute_hash Hw) (zeroTarget bcW.difficulty) = false :=
  claim_C5_proof_of_work Hw bcW "m" 0 1 ⟨1, "g", 0, [⟨"s", "r", 1, 0, none⟩], 0, some "ab"⟩
    ⟨bcW.chain ++ [⟨1, "g", 0, [⟨"s", "r", 1, 0, none⟩], 0, some "ab"⟩], [], 0, []⟩
    (by decide)

/-! ## Wallet creation and minting (C4) -/

theorem balanceSpec_append (chain : List Block) (b : Block)
    (p : List Transaction) (d : Nat) (r : List (String × String)) (addr : String) :
    balanceSpec ⟨chain ++ [b], p, d, r⟩ addr
      = balanceSpec ⟨chain, p, d, r⟩ addr + (b.transactions.map (txDelta addr)).sum := by
  unfold balanceSpec
  simp

theorem balanceSpec_eq_zero (bc : Blockchain) (addr : String)
    (h : ∀ b ∈ bc.chain, ∀ tx ∈ b.transactions, tx.recipient ≠ addr ∧ tx.sender ≠ addr) :
    balanceSpec bc addr = 0 := by
  unfold balanceSpec
  apply List.sum_eq_zero
  intro x hx
  obtain ⟨y, hy, hxy⟩ := List.mem_map.mp hx
  obtain ⟨l, hl, hyl⟩ := List.mem_flatten.mp hy
  obtain ⟨b, hb, hbl⟩ := List.mem_map.mp hl
  subst hbl
  obtain ⟨hr, hs⟩ := h b hb y hyl
  rw [← hxy]
  unfold txDelta
  rw [if_neg hr, if_neg hs]
  simp

/-- Claim C4: `create_account()` registers the new wallet's address-to-key
mapping and appends exactly one sealed block holding the single
SYSTEM-to-address mint transaction of amount 10, at index equal to the old
chain length, with `prev_hash` the old tip's stored hash, nonce 0, hash
computed directly (no proof-of-work); the fresh address (one not occurring
in the chain, as the spec's collision-freedom provides) then has balance
exactly 10. -/
theorem claim_C4_create_wallet (H : String → String) (bc : Blockchain)
    (pk : String) (t1 t2 : Rat) (tip : Block) (ph : String)
    (htip : bc.chain.getLast? = some tip)
    (hph : tip.hash = some ph)
    (hfresh : ∀ b ∈ bc.chain, ∀ tx ∈ b.transactions,
      tx.recipient ≠ addrOf H pk ∧ tx.sender ≠ addrOf H pk)
    (hsys : addrOf H pk ≠ "SYSTEM") :
    ∃ (w : Wallet) (bc' : Blockchain) (mb : Block),
      bc.create_wallet H pk t1 t2 = some (w, bc') ∧
      w.address = addrOf H pk ∧
      w.private_key = pk ∧
      bc'.wallet_registry = (w.address, pk) :: bc.wallet_registry ∧
      bc'.chain = bc.chain ++ [mb] ∧
      bc'.pending_transactions = bc.pending_transactions ∧
      bc'.difficulty = bc.difficulty ∧
      mb.index = bc.chain.length ∧
      mb.prev_hash = ph ∧
      mb.nonce = 0 ∧
      mb.transactions = [⟨"SYSTEM", w.address, 10, t1, none⟩] ∧
      mb.hash = some (mb.compute_hash H) ∧
      bc'.get_balance w.address = 10 := by
  refine ⟨mkWallet H pk,
    ⟨bc.chain ++ [⟨bc.chain.length, ph, t2, [⟨"SYSTEM", addrOf H pk, 10, t1, none⟩], 0,
        some ((⟨bc.chain.length, ph, t2, [⟨"SYSTEM", addrOf H pk, 10, t1, none⟩], 0, none⟩
          : Block).compute_hash H)⟩],
      bc.pending_transactions, bc.difficulty,
      (addrOf H pk, pk) :: bc.wallet_registry⟩,
    ⟨bc.chain.length, ph, t2, [⟨"SYSTEM", addrOf H pk, 10, t1, none⟩], 0,
      some ((⟨bc.chain.length, ph, t2, [⟨"SYSTEM", addrOf H pk, 10, t1, none⟩], 0, none⟩
        : Block).compute_hash H)⟩,
    ?_, rfl, rfl, rfl, rfl, rfl, rfl, rfl, rfl, rfl, rfl, rfl, ?_⟩
  · unfold Blockchain.create_wallet
    rw [htip]
    dsimp only
    rw [hph]
    rfl
  · rw [get_balance_eq_balanceSpec, balanceSpec_append,
      balanceSpec_eq_zero
        ⟨bc.chain, bc.pending_transactions, bc.difficulty,
          (addrOf H pk, pk) :: bc.wallet_registry⟩
        ((mkWallet H pk).address) hfresh]
    simp only [List.map_cons, List.map_nil, List.sum_cons, List.sum_nil]
    unfold txDelta
    dsimp only [mkWallet]
    rw [if_pos rfl, if_neg (Ne.symm hsys)]
    norm_num

/-- Witness for C4 at a concrete ledger state with a fresh address. -/
theorem claim_C4_create_wallet_witness :
    ∃ (w : Wallet) (bc' : Blockchain) (mb : Block),
      bcW.create_wallet Hw "k" 1 2 = some (w, bc') ∧
      w.address = addrOf Hw "k" ∧
      w.private_key = "k" ∧
      bc'.wallet_registry = (w.address, "k") :: bcW.wallet_registry ∧
      bc'.chain = bcW.chain ++ [mb] ∧
      bc'.pending_transactions = bcW.pending_transactions ∧
      bc'.difficulty = bcW.difficulty ∧
      mb.index = bcW.chain.length ∧
      mb.prev_hash = "g" ∧
      mb.nonce = 0 ∧
      mb.transactions = [⟨"SYSTEM", w.address, 10, 1, none⟩] ∧
      mb.hash = some (mb.compute_hash Hw) ∧
      bc'.get_balance w.address = 10 :=
  claim_C4_create_wallet Hw bcW "k" 1 2 ⟨0, "0", 0, [], 0, some "g"⟩ "g"
    rfl rfl (by decide) (by decide)

/-! ## Transaction admission (C3, C9) -/

theorem to_json_sig_irrel (tx : Transaction) (s : Option String) :
    ({tx with signature := s} : Transaction).to_json false = tx.to_json false := by
  cases s <;> cases tx <;> rfl

theorem addrOf_ne_SYSTEM (H : String → String) (pk : String)
    (hhex : ∀ s : String, ∀ c ∈ (H s).data, c ∈ hexDigits) :
    addrOf H pk ≠ "SYSTEM" := by
  intro h
  have hdata : (H pk).data.take 40 = "SYSTEM".data := congrArg String.data h
  have hS : 'S' ∈ (H pk).data.take 40 := by
    rw [hdata]
    decide
  have hmem : 'S' ∈ (H pk).data := List.take_subset 40 (H pk).data hS
  have := hhex pk 'S' hmem
  exact absurd this (by decide)

/-- Full case analysis of `create_transaction` (assuming the derived sender
address is not the SYSTEM sentinel): the three rejection reasons fire
exactly on registry miss, signature mismatch, and insufficient confirmed
balance, each leaving the state untouched; otherwise the signed transaction
is appended to the pool and returned. -/
theorem create_transaction_cases (H : String → String) (bc : Blockchain)
    (pk recip : String) (amt t : Rat)
    (hsys : addrOf H pk ≠ "SYSTEM") :
    (regLookup (addrOf H pk) bc.wallet_registry = none →
      bc.create_transaction H pk recip amt t
        = (Except.error TxError.unknownSender, bc)) ∧
    (∀ k, regLookup (addrOf H pk) bc.wallet_registry = some k →
      (signed_tx H pk recip amt t).signature
          ≠ some (H (k ++ (signed_tx H pk recip amt t).to_json false)) →
      bc.create_transaction H pk recip amt t
        = (Except.error TxError.invalidSignature, bc)) ∧
    (∀ k, regLookup (addrOf H pk) bc.wallet_registry = some k →
      (signed_tx H pk recip amt t).signature
          = some (H (k ++ (signed_tx H pk recip amt t).to_json false)) →
      bc.get_balance (addrOf H pk) < amt →
      bc.create_transaction H pk recip amt t
        = (Except.error TxError.insufficientBalance, bc)) ∧
    (∀ k, regLookup (addrOf H pk) bc.wallet_registry = some k →
      (signed_tx H pk recip amt t).signature
          = some (H (k ++ (signed_tx H pk recip amt t).to_json false)) →
      ¬ bc.get_balance (addrOf H pk) < amt →
      bc.create_transaction H pk recip amt t
        = (Except.ok (signed_tx H pk recip amt t),
            ⟨bc.chain, bc.pending_transactions ++ [signed_tx H pk recip amt t],
              bc.difficulty, bc.wallet_registry⟩)) := by
  have hver : bc.verify_transaction H (signed_tx H pk recip amt t)
      = (if (signed_tx H pk recip amt t).sender = "SYSTEM" then none
         else
           match regLookup (signed_tx H pk recip amt t).sender bc.wallet_registry with
           | none => some TxError.unknownSender
           | some private_key =>
             if (signed_tx H pk recip amt t).signature
                 ≠ some (H (private_key ++ (signed_tx H pk recip amt t).to_json false)) then
               some TxError.invalidSignature
             else if bc.get_balance (signed_tx H pk recip amt t).sender
                 < (signed_tx H pk recip amt t).amount then
               some TxError.insufficientBalance
             else none) := rfl
  have hsys2 : (signed_tx H pk recip amt t).sender ≠ "SYSTEM" := hsys
  rw [if_neg hsys2] at hver
  refine ⟨?_, ?_, ?_, ?_⟩
  · intro hlk
    show (match bc.verify_transaction H (signed_tx H pk recip amt t) with
      | some e => (Except.error e, bc)
      | none => (Except.ok (signed_tx H pk recip amt t),
          ⟨bc.chain, bc.pending_transactions ++ [signed_tx H pk recip amt t],
            bc.difficulty, bc.wallet_registry⟩)) = _
    rw [hver]
    have hlk2 : regLookup (signed_tx H pk recip amt t).sender bc.wallet_registry = none := hlk
    rw [hlk2]
  · intro k hlk hne
    show (match bc.verify_transaction H (signed_tx H pk recip amt t) with
      | some e => (Except.error e, bc)
      | none => (Except.ok (signed_tx H pk recip amt t),
          ⟨bc.chain, bc.pending_transactions ++ [signed_tx H pk recip amt t],
            bc.difficulty, bc.wallet_registry⟩)) = _
    rw [hver]
    have hlk2 : regLookup (signed_tx H pk recip amt t).sender bc.wallet_registry
        = some k := hlk
    rw [hlk2]
    dsimp only
    rw [if_pos hne]
  · intro k hlk heq hbal
    show (match bc.verify_transaction H (signed_tx H pk recip amt t) with
      | some e => (Except.error e, bc)
      | none => (Except.ok (signed_tx H pk recip amt t),
          ⟨bc.chain, bc.pending_transactions ++ [signed_tx H pk recip amt t],
            bc.difficulty, bc.wallet_registry⟩)) = _
    rw [hver]
    have hlk2 : regLookup (signed_tx H pk recip amt t).sender bc.wallet_registry
        = some k := hlk
    rw [hlk2]
    dsimp only
    have hbal2 : bc.get_balance (signed_tx H pk recip amt t).sender
        < (signed_tx H pk recip amt t).amount := hbal
    rw [if_neg (not_not_intro heq), if_pos hbal2]
  · intro k hlk heq hbal
    show (match bc.verify_transaction H (signed_tx H pk recip amt t) with
      | some e => (Except.error e, bc)
      | none => (Except.ok (signed_tx H pk recip amt t),
          ⟨bc.chain, bc.pending_transactions ++ [signed_tx H pk recip amt t],
            bc.difficulty, bc.wallet_registry⟩)) = _
    rw [hver]
    have hlk2 : regLookup (signed_tx H pk recip amt t).sender bc.wallet_registry
        = some k := hlk
    rw [hlk2]
    dsimp only
    have hbal2 : ¬ bc.get_balance (signed_tx H pk recip amt t).sender
        < (signed_tx H pk recip amt t).amount := hbal
    rw [if_neg (not_not_intro heq), if_neg hbal2]

/-- Claim C3: `submit_transaction` rejects exactly on unknown sender,
signature mismatch, or insufficient confirmed balance (in that order of
checks), reporting the reason; every rejection leaves the whole ledger
state untouched, and on success the signed transaction is appended to
`pending` and returned. (The derived sender address is assumed distinct
from the SYSTEM sentinel, as holds for hex digests — see C9.) -/
theorem claim_C3_submit_transaction (H : String → String) (bc : Blockchain)
    (pk recip : String) (amt t : Rat)
    (hsys : addrOf H pk ≠ "SYSTEM") :
    (regLookup (addrOf H pk) bc.wallet_registry = none →
      bc.create_transaction H pk recip amt t
        = (Except.error TxError.unknownSender, bc)) ∧
    (∀ k, regLookup (addrOf H pk) bc.wallet_registry = some k →
      (signed_tx H pk recip amt t).signature
          ≠ some (H (k ++ (signed_tx H pk recip amt t).to_json false)) →
      bc.create_transaction H pk recip amt t
        = (Except.error TxError.invalidSignature, bc)) ∧
    (∀ k, regLookup (addrOf H pk) bc.wallet_registry = some k →
      (signed_tx H pk recip amt t).signature
          = some (H (k ++ (signed_tx H pk recip amt t).to_json false)) →
      bc.get_balance (addrOf H pk) < amt →
      bc.create_transaction H pk recip amt t
        = (Except.error TxError.insufficientBalance, bc)) ∧
    (∀ k, regLookup (addrOf H pk) bc.wallet_registry = some k →
      (signed_tx H pk recip amt t).signature
          = some (H (k ++ (signed_tx H pk recip amt t).to_json false)) →
      ¬ bc.get_balance (addrOf H pk) < amt →
      bc.create_transaction H pk recip amt t
        = (Except.ok (signed_tx H pk recip amt t),
            ⟨bc.chain, bc.pending_transactions ++ [signed_tx H pk recip amt t],
              bc.difficulty, bc.wallet_registry⟩)) :=
  create_transaction_cases H bc pk recip amt t hsys

/-- Witness for C3: with an empty registry a concrete submission is rejected
as unknown sender, leaving the state untouched. -/
theorem claim_C3_submit_transaction_witness :
    bcW.create_transaction Hw "k" "r" 1 0 = (Except.error TxError.unknownSender, bcW) :=
  (claim_C3_submit_transaction Hw bcW "k" "r" 1 0 (by decide)).1 rfl

theorem signed_tx_signature (H : String → String) (pk recip : String) (amt t : Rat) :
    (signed_tx H pk recip amt t).signature
      = some (H (pk ++ (signed_tx H pk recip amt t).to_json false)) := by
  show some (H (pk ++ (Transaction.mk (addrOf H pk) recip amt t none).to_json false))
      = some (H (pk ++ (signed_tx H pk recip amt t).to_json false))
  rw [show (signed_tx H pk recip amt t).to_json false
      = (Transaction.mk (addrOf H pk) recip amt t none).to_json false from
    to_json_sig_irrel (Transaction.mk (addrOf H pk) recip amt t none) _]

/-- Claim C9: from the `create_transaction` entry point the SYSTEM
validation fast-path is unreachable (the derived sender address is a prefix
of a hex digest, never "SYSTEM"), and — provided the registry entry at the
derived address, if any, holds the very private key submitted (the claim's
"same private key", true absent 40-hex-character address collisions) — the
invalid-signature branch is unreachable too: the outcome is success,
unknown sender, or insufficient balance. -/
theorem claim_C9_unreachable_branches (H : String → String) (bc : Blockchain)
    (pk recip : String) (amt t : Rat)
    (hhex : ∀ s : String, ∀ c ∈ (H s).data, c ∈ hexDigits)
    (hsame : ∀ k, regLookup (addrOf H pk) bc.wallet_registry = some k → k = pk) :
    (signed_tx H pk recip amt t).sender ≠ "SYSTEM" ∧
    (bc.create_transaction H pk recip amt t).1 ≠ Except.error TxError.invalidSignature ∧
    ((bc.create_transaction H pk recip amt t).1 = Except.error TxError.unknownSender ∨
     (bc.create_transaction H pk recip amt t).1 = Except.error TxError.insufficientBalance ∨
     (bc.create_transaction H pk recip amt t).1 = Except.ok (signed_tx H pk recip amt t)) := by
  have hsys := addrOf_ne_SYSTEM H pk hhex
  obtain ⟨h1, _h2, h3, h4⟩ := create_transaction_cases H bc pk recip amt t hsys
  refine ⟨hsys, ?_⟩
  cases hlk : regLookup (addrOf H pk) bc.wallet_registry with
  | none =>
    rw [h1 hlk]
    exact ⟨fun hcontra => TxError.noConfusion (Except.error.inj hcontra), Or.inl rfl⟩
  | some k =>
    have hk := hsame k hlk
    have hsig : (signed_tx H pk recip amt t).signature
        = some (H (k ++ (signed_tx H pk recip amt t).to_json false)) := by
      rw [hk]
      exact signed_tx_signature H pk recip amt t
    by_cases hbal : bc.get_balance (addrOf H pk) < amt
    · rw [h3 k hlk hsig hbal]
      exact ⟨fun hcontra => TxError.noConfusion (Except.error.inj hcontra),
        Or.inr (Or.inl rfl)⟩
    · rw [h4 k hlk hsig hbal]
      exact ⟨fun hcontra => Except.noConfusion hcontra, Or.inr (Or.inr rfl)⟩

/-- Witness for C9 with a concrete hex-digest hash and empty registry. -/
theorem claim_C9_unreachable_branches_witness :
    (signed_tx Hw "k" "r" 1 0).sender ≠ "SYSTEM" ∧
    (bcW.create_transaction Hw "k" "r" 1 0).1 ≠ Except.error TxError.invalidSignature ∧
    ((bcW.create_transaction Hw "k" "r" 1 0).1 = Except.error TxError.unknownSender ∨
     (bcW.create_transaction Hw "k" "r" 1 0).1 = Except.error TxError.insufficientBalance ∨
     (bcW.create_transaction Hw "k" "r" 1 0).1 = Except.ok (signed_tx Hw "k" "r" 1 0)) :=
  claim_C9_unreachable_branches Hw bcW "k" "r" 1 0
    (fun _s => by
      show ∀ c ∈ ("ab" : String).data, c ∈ hexDigits
      decide)
    (fun _k hk => by cases hk)

/-! ## Chain validation (C6, C7, C10) -/

theorem txCheck_iff (H : String → String) (registry : List (String × String))
    (tx : Transaction) : txCheck H registry tx = true ↔ SigOK H registry tx := by
  unfold txCheck SigOK
  cases hlk : regLookup tx.sender registry with
  | none => simp [hlk]
  | some k => simp [hlk]

theorem blockChecks_iff (H : String → String) (registry : List (String × String))
    (prev cur : Block) :
    blockChecks H registry prev cur = true ↔
      cur.hash = some (cur.compute_hash H) ∧
        some cur.prev_hash = prev.hash ∧
        ∀ tx ∈ cur.transactions, SigOK H registry tx := by
  unfold blockChecks
  simp [List.all_eq_true, txCheck_iff, and_assoc]

theorem LinkedFrom_nil (H : String → String) (registry : List (String × String))
    (prev : Block) : LinkedFrom H registry prev [] = True := by
  rw [LinkedFrom.eq_def]

theorem LinkedFrom_cons_eq (H : String → String) (registry : List (String × String))
    (prev cur : Block) (rest : List Block) :
    LinkedFrom H registry prev (cur :: rest)
      = (cur.hash = some (cur.compute_hash H) ∧
          some cur.prev_hash = prev.hash ∧
          (∀ tx ∈ cur.transactions, SigOK H registry tx) ∧
          LinkedFrom H registry cur rest) := by
  rw [LinkedFrom.eq_def]

theorem firstInvalidFrom_none (H : String → String) (registry : List (String × String)) :
    ∀ (rest : List Block) (i : Nat) (prev : Block),
      firstInvalidFrom H registry i prev rest = none ↔ LinkedFrom H registry prev rest := by
  intro rest
  induction rest with
  | nil =>
    intro i prev
    simp [firstInvalidFrom, LinkedFrom]
  | cons cur rest ih =>
    intro i prev
    show (if blockChecks H registry prev cur then
        firstInvalidFrom H registry (i + 1) cur rest
      else some i) = none ↔ LinkedFrom H registry prev (cur :: rest)
    by_cases hc : blockChecks H registry prev cur = true
    · rw [if_pos hc, ih, LinkedFrom_cons_eq]
      obtain ⟨h1, h2, h3⟩ := (blockChecks_iff H registry prev cur).mp hc
      exact ⟨fun hl => ⟨h1, h2, h3, hl⟩, fun hl => hl.2.2.2⟩
    · rw [if_neg hc, LinkedFrom_cons_eq]
      constructor
      · intro hcontra
        exact absurd hcontra (by simp)
      · intro hl
        exact absurd ((blockChecks_iff H registry prev cur).mpr ⟨hl.1, hl.2.1, hl.2.2.1⟩) hc

theorem is_chain_valid_iff (H : String → String) (bc : Blockchain)
    (g : Block) (rest : List Block) (hch : bc.chain = g :: rest) :
    bc.is_chain_valid H = true ↔ LinkedFrom H bc.wallet_registry g rest := by
  unfold Blockchain.is_chain_valid Blockchain.first_invalid
  rw [hch]
  dsimp only
  rw [Option.isNone_iff_eq_none]
  exact firstInvalidFrom_none H bc.wallet_registry rest 1 g

theorem firstInvalidFrom_congr_prev (H : String → String)
    (registry : List (String × String)) (rest : List Block) (i : Nat)
    (p q : Block) (hpq : p.hash = q.hash) :
    firstInvalidFrom H registry i p rest = firstInvalidFrom H registry i q rest := by
  cases rest with
  | nil => rfl
  | cons cur rest =>
    show (if blockChecks H registry p cur then firstInvalidFrom H registry (i + 1) cur rest
        else some i)
      = (if blockChecks H registry q cur then firstInvalidFrom H registry (i + 1) cur rest
        else some i)
    have hbc : blockChecks H registry p cur = blockChecks H registry q cur := by
      unfold blockChecks
      rw [hpq]
    rw [hbc]

/-- Claim C10: `is_chain_valid` imposes no proof-of-work requirement — it is
entirely independent of the `difficulty` field — and never examines the
genesis block beyond its stored hash (so an arbitrary genesis hash is
accepted provided block 1 links to it); its acceptance condition is exactly
hash-recomputation equality, `prev_hash` linkage, and non-SYSTEM signature
validity for the blocks after genesis. -/
theorem claim_C10_no_pow_check (H : String → String) (bc : Blockchain)
    (g : Block) (rest : List Block) (hch : bc.chain = g :: rest) :
    (∀ d : Nat,
      (Blockchain.mk bc.chain bc.pending_transactions d bc.wallet_registry).is_chain_valid H
        = bc.is_chain_valid H) ∧
    (∀ g' : Block, g'.hash = g.hash →
      (Blockchain.mk (g' :: rest) bc.pending_transactions bc.difficulty
          bc.wallet_registry).is_chain_valid H
        = bc.is_chain_valid H) ∧
    (bc.is_chain_valid H = true ↔ LinkedFrom H bc.wallet_registry g rest) := by
  refine ⟨fun d => rfl, ?_, is_chain_valid_iff H bc g rest hch⟩
  intro g' hg
  show (Blockchain.first_invalid _ H).isNone = (Blockchain.first_invalid _ H).isNone
  unfold Blockchain.first_invalid
  rw [hch]
  dsimp only
  rw [firstInvalidFrom_congr_prev H bc.wallet_registry rest 1 g' g hg]

/-- Witness for C10: validity of a concrete one-block ledger is unchanged by
raising the difficulty field. -/
theorem claim_C10_no_pow_check_witness :
    (Blockchain.mk bcW.chain bcW.pending_transactions 9 bcW.wallet_registry).is_chain_valid Hw
      = bcW.is_chain_valid Hw :=
  (claim_C10_no_pow_check Hw bcW ⟨0, "0", 0, [], 0, some "g"⟩ [] rfl).1 9

theorem firstInvalidFrom_break (H : String → String)
    (registry : List (String × String)) :
    ∀ (pre : List Block) (g cur : Block) (post : List Block) (i : Nat),
      passesFrom H registry g pre = true →
      blockChecks H registry (lastD g pre) cur = false →
      firstInvalidFrom H registry i g (pre ++ cur :: post) = some (i + pre.length) := by
  intro pre
  induction pre with
  | nil =>
    intro g cur post i _ hbad
    have hbad2 : blockChecks H registry g cur = false := hbad
    show (if blockChecks H registry g cur then
        firstInvalidFrom H registry (i + 1) cur post
      else some i) = some (i + 0)
    rw [if_neg (by rw [hbad2]; exact Bool.false_ne_true)]
    rfl
  | cons p ps ih =>
    intro g cur post i hpass hbad
    have hpass2 : blockChecks H registry g p = true ∧ passesFrom H registry p ps = true := by
      have : (blockChecks H registry g p && passesFrom H registry p ps) = true := hpass
      exact Bool.and_eq_true_iff.mp this
    show (if blockChecks H registry g p then
        firstInvalidFrom H registry (i + 1) p (ps ++ cur :: post)
      else some i) = some (i + (ps.length + 1))
    rw [if_pos hpass2.1, ih p cur post (i + 1) hpass2.2 hbad]
    congr 1
    omega

/-- Claim C7: if some block after genesis fails its stored-hash
recomputation, `prev_hash` link, or signature check while every earlier
block passes, then `verify_chain` returns false and reports exactly that
block's index. In particular this covers any post-sealing mutation of a
single stored field that breaks one of these checks. -/
theorem claim_C7_tamper_detection (H : String → String) (bc : Blockchain)
    (g : Block) (pre : List Block) (cur : Block) (post : List Block)
    (hch : bc.chain = g :: pre ++ cur :: post)
    (hpre : passesFrom H bc.wallet_registry g pre = true)
    (hbad : blockChecks H bc.wallet_registry (lastD g pre) cur = false) :
    bc.first_invalid H = some (pre.length + 1) ∧ bc.is_chain_valid H = false := by
  have h : bc.first_invalid H = some (1 + pre.length) := by
    unfold Blockchain.first_invalid
    rw [hch]
    exact firstInvalidFrom_break H bc.wallet_registry pre g cur post 1 hpre hbad
  constructor
  · rw [h]
    congr 1
    omega
  · unfold Blockchain.is_chain_valid
    rw [h]
    rfl

/-- Witness for C7: a two-block ledger whose second block stores a hash
different from its recomputed content hash is reported invalid at index 1. -/
theorem claim_C7_tamper_detection_witness :
    (Blockchain.mk [⟨0, "0", 0, [], 0, some "g"⟩, ⟨1, "g", 0, [], 0, some "WRONG"⟩]
        [] 0 []).first_invalid Hw = some (0 + 1) ∧
      (Blockchain.mk [⟨0, "0", 0, [], 0, some "g"⟩, ⟨1, "g", 0, [], 0, some "WRONG"⟩]
        [] 0 []).is_chain_valid Hw = false :=
  claim_C7_tamper_detection Hw _ ⟨0, "0", 0, [], 0, some "g"⟩ []
    ⟨1, "g", 0, [], 0, some "WRONG"⟩ [] rfl rfl (by decide)

theorem SigOK_mono (H : String → String) (registry : List (String × String))
    (a k : String) (tx : Transaction)
    (hfresh : regLookup a registry = none)
    (hok : SigOK H registry tx) : SigOK H ((a, k) :: registry) tx := by
  rcases hok with hsys | ⟨pk, hlk, hsig⟩
  · exact Or.inl hsys
  · by_cases hsa : tx.sender = a
    · rw [hsa, hfresh] at hlk
      cases hlk
    · refine Or.inr ⟨pk, ?_, hsig⟩
      show (if tx.sender = a then some k else regLookup tx.sender registry) = some pk
      rw [if_neg hsa]
      exact hlk

theorem LinkedFrom_mono (H : String → String) (registry : List (String × String))
    (a k : String) (hfresh : regLookup a registry = none) :
    ∀ (rest : List Block) (prev : Block),
      LinkedFrom H registry prev rest → LinkedFrom H ((a, k) :: registry) prev rest := by
  intro rest
  induction rest with
  | nil =>
    intro prev _
    rw [LinkedFrom_nil]
    trivial
  | cons cur rest ih =>
    intro prev hl
    rw [LinkedFrom_cons_eq] at hl
    rw [LinkedFrom_cons_eq]
    exact ⟨hl.1, hl.2.1,
      fun tx htx => SigOK_mono H registry a k tx hfresh (hl.2.2.1 tx htx),
      ih cur hl.2.2.2⟩

theorem getLast_eq_lastD : ∀ (rest : List Block) (g : Block),
    (g :: rest).getLast? = some (lastD g rest) := by
  intro rest
  induction rest with
  | nil => intro g; rfl
  | cons c cs ih =>
    intro g
    rw [List.getLast?_cons_cons]
    exact ih c

theorem LinkedFrom_append (H : String → String) (registry : List (String × String)) :
    ∀ (rest : List Block) (g nb : Block),
      LinkedFrom H registry g rest →
      nb.hash = some (nb.compute_hash H) →
      some nb.prev_hash = (lastD g rest).hash →
      (∀ tx ∈ nb.transactions, SigOK H registry tx) →
      LinkedFrom H registry g (rest ++ [nb]) := by
  intro rest
  induction rest with
  | nil =>
    intro g nb _ hh hp hs
    show LinkedFrom H registry g [nb]
    rw [LinkedFrom_cons_eq, LinkedFrom_nil]
    exact ⟨hh, hp, hs, trivial⟩
  | cons c cs ih =>
    intro g nb hl hh hp hs
    rw [LinkedFrom_cons_eq] at hl
    show LinkedFrom H registry g (c :: (cs ++ [nb]))
    rw [LinkedFrom_cons_eq]
    exact ⟨hl.1, hl.2.1, hl.2.2.1, ih c nb hl.2.2.2 hh hp hs⟩

theorem verify_none_SigOK (H : String → String) (bc : Blockchain) (tx : Transaction)
    (hv : bc.verify_transaction H tx = none) : SigOK H bc.wallet_registry tx := by
  unfold Blockchain.verify_transaction at hv
  by_cases hsys : tx.sender = "SYSTEM"
  · exact Or.inl hsys
  · rw [if_neg hsys] at hv
    cases hlk : regLookup tx.sender bc.wallet_registry with
    | none =>
      rw [hlk] at hv
      cases hv
    | some k =>
      rw [hlk] at hv
      dsimp only at hv
      by_cases hsig : tx.signature ≠ some (H (k ++ tx.to_json false))
      · rw [if_pos hsig] at hv
        cases hv
      · exact Or.inr ⟨k, hlk, not_not.mp hsig⟩

theorem LedgerInv_iff (H : String → String) (bc : Blockchain)
    (g : Block) (rest : List Block) (hch : bc.chain = g :: rest) :
    LedgerInv H bc ↔
      (g.hash.isSome = true ∧ LinkedFrom H bc.wallet_registry g rest ∧
        ∀ tx ∈ bc.pending_transactions, SigOK H bc.wallet_registry tx) := by
  unfold LedgerInv
  rw [hch]

theorem LedgerInv_chain_ne (H : String → String) (bc : Blockchain)
    (hinv : LedgerInv H bc) (hch : bc.chain = []) : False := by
  unfold LedgerInv at hinv
  rw [hch] at hinv
  exact hinv

theorem inv_init (H : String → String) (d : Nat) (t : Rat) :
    LedgerInv H (Blockchain.init H d t) := by
  rw [LedgerInv_iff H _ (genesisBlock H t) [] rfl]
  refine ⟨rfl, ?_, ?_⟩
  · rw [LinkedFrom_nil]
    trivial
  · intro tx htx
    exact absurd htx (by simp [Blockchain.init])

theorem LedgerInv_snoc (H : String → String) (g nb : Block) (rest : List Block)
    (p : List Transaction) (d : Nat) (reg : List (String × String))
    (hg : g.hash.isSome = true)
    (hl : LinkedFrom H reg g rest)
    (hh : nb.hash = some (nb.compute_hash H))
    (hp : some nb.prev_hash = (lastD g rest).hash)
    (hs : ∀ tx ∈ nb.transactions, SigOK H reg tx)
    (hpend : ∀ tx ∈ p, SigOK H reg tx) :
    LedgerInv H ⟨g :: (rest ++ [nb]), p, d, reg⟩ :=
  (LedgerInv_iff H _ g (rest ++ [nb]) rfl).mpr
    ⟨hg, LinkedFrom_append H reg rest g nb hl hh hp hs, hpend⟩

theorem inv_create_wallet (H : String → String) {bc bc' : Blockchain} {w : Wallet}
    {pk : String} {t1 t2 : Rat}
    (hinv : LedgerInv H bc)
    (hfresh : regLookup (addrOf H pk) bc.wallet_registry = none)
    (hcw : bc.create_wallet H pk t1 t2 = some (w, bc')) : LedgerInv H bc' := by
  unfold Blockchain.create_wallet at hcw
  cases hgl : bc.chain.getLast? with
  | none =>
    rw [hgl] at hcw
    cases hcw
  | some tip =>
    rw [hgl] at hcw
    dsimp only at hcw
    cases hth : tip.hash with
    | none =>
      rw [hth] at hcw
      cases hcw
    | some ph =>
      rw [hth] at hcw
      dsimp only at hcw
      injection hcw with hcw2
      injection hcw2 with _hw hbc'
      subst hbc'
      cases hch : bc.chain with
      | nil => exact (LedgerInv_chain_ne H bc hinv hch).elim
      | cons g rest =>
        have hinv2 := (LedgerInv_iff H bc g rest hch).mp hinv
        have hlast : tip = lastD g rest := by
          rw [hch, getLast_eq_lastD] at hgl
          exact (Option.some.inj hgl).symm
        refine LedgerInv_snoc H g _ rest bc.pending_transactions bc.difficulty _
          hinv2.1
          (LinkedFrom_mono H bc.wallet_registry (addrOf H pk) pk hfresh rest g hinv2.2.1)
          rfl ?_ ?_ ?_
        · show some ph = (lastD g rest).hash
          rw [← hlast, hth]
        · intro tx2 htx2
          rw [List.mem_singleton] at htx2
          subst htx2
          exact Or.inl rfl
        · intro tx2 htx2
          exact SigOK_mono H bc.wallet_registry (addrOf H pk) pk tx2 hfresh
            (hinv2.2.2 tx2 htx2)

theorem inv_create_transaction (H : String → String) {bc bc' : Blockchain}
    {tx : Transaction} {pk recip : String} {amt t : Rat}
    (hinv : LedgerInv H bc)
    (hct : bc.create_transaction H pk recip amt t = (Except.ok tx, bc')) :
    LedgerInv H bc' := by
  unfold Blockchain.create_transaction at hct
  dsimp only at hct
  cases hv : bc.verify_transaction H (signed_tx H pk recip amt t) with
  | some e =>
    rw [hv] at hct
    dsimp only at hct
    injection hct with h1 _h2
    exact Except.noConfusion h1
  | none =>
    rw [hv] at hct
    dsimp only at hct
    injection hct with _h1 h2
    subst h2
    cases hch : bc.chain with
    | nil => exact (LedgerInv_chain_ne H bc hinv hch).elim
    | cons g rest =>
      have hinv2 := (LedgerInv_iff H bc g rest hch).mp hinv
      refine (LedgerInv_iff H _ g rest rfl).mpr ⟨hinv2.1, hinv2.2.1, ?_⟩
      intro tx2 htx2
      rw [List.mem_append] at htx2
      rcases htx2 with h | h
      · exact hinv2.2.2 tx2 h
      · rw [List.mem_singleton] at h
        subst h
        exact verify_none_SigOK H bc _ hv

theorem inv_mine (H : String → String) {bc bc' : Blockchain} {blk : Block}
    {miner : String} {t : Rat} {fuel : Nat}
    (hinv : LedgerInv H bc)
    (hm : bc.mine_pending_transactions H miner t fuel = MineResult.mined blk bc') :
    LedgerInv H bc' := by
  unfold Blockchain.mine_pending_transactions at hm
  by_cases hpe : bc.pending_transactions = []
  · rw [if_pos hpe] at hm
    cases hm
  · rw [if_neg hpe] at hm
    cases hgl : bc.chain.getLast? with
    | none =>
      rw [hgl] at hm
      cases hm
    | some tip =>
      rw [hgl] at hm
      dsimp only at hm
      cases hth : tip.hash with
      | none =>
        rw [hth] at hm
        cases hm
      | some ph =>
        rw [hth] at hm
        dsimp only at hm
        cases hsea : findNonce H (zeroTarget bc.difficulty) (mineBase bc ph t) fuel with
        | none =>
          rw [hsea] at hm
          cases hm
        | some sealed =>
          rw [hsea] at hm
          dsimp only at hm
          injection hm with hb hbc'
          subst hbc'
          obtain ⟨h1, _h2, _h3, _h4⟩ :=
            findNonce_some H (zeroTarget bc.difficulty) fuel (mineBase bc ph t) sealed hsea
          cases hch : bc.chain with
          | nil => exact (LedgerInv_chain_ne H bc hinv hch).elim
          | cons g rest =>
            have hinv2 := (LedgerInv_iff H bc g rest hch).mp hinv
            have hlast : tip = lastD g rest := by
              rw [hch, getLast_eq_lastD] at hgl
              exact (Option.some.inj hgl).symm
            refine LedgerInv_snoc H g sealed rest [] bc.difficulty bc.wallet_registry
              hinv2.1 hinv2.2.1 (congrArg Block.hash h1) ?_ ?_ ?_
            · rw [← hlast, hth]
              exact congrArg (fun b => some b.prev_hash) h1
            · intro tx2 htx2
              rw [congrArg Block.transactions h1] at htx2
              exact hinv2.2.2 tx2 htx2
            · intro tx2 htx2
              exact absurd htx2 (by simp)

/-- Claim C6: `verify_chain` returns true on every untouched chain, i.e. on
every ledger state reachable from a fresh ledger by successful
`create_account`, `submit_transaction` and `mine` operations (wallet
addresses assumed collision-free, as the spec stipulates). -/
theorem claim_C6_valid_on_reachable (H : String → String) (bc : Blockchain)
    (h : Reachable H bc) : bc.is_chain_valid H = true := by
  have hinv : LedgerInv H bc := by
    induction h with
    | base d t => exact inv_init H d t
    | wallet _ hfresh hcw ih => exact inv_create_wallet H ih hfresh hcw
    | txn _ hct ih => exact inv_create_transaction H ih hct
    | mined _ hm ih => exact inv_mine H ih hm
  cases hch : bc.chain with
  | nil => exact (LedgerInv_chain_ne H bc hinv hch).elim
  | cons g rest =>
    exact (is_chain_valid_iff H bc g rest hch).mpr
      ((LedgerInv_iff H bc g rest hch).mp hinv).2.1

/-- Witness for C6: a freshly initialized ledger verifies as valid. -/
theorem claim_C6_valid_on_reachable_witness :
    (Blockchain.init Hw 3 0).is_chain_valid Hw = true :=
  claim_C6_valid_on_reachable Hw (Blockchain.init Hw 3 0) (Reachable.base 3 0)
